import Mathlib

/-!
Verification of `doc/docca-asciidoc/docca_asciidoc.py`, the documentation-model
compiler of this repository.  Python strings are modelled as `List Char`
(`Str`), Python dictionaries keyed by strings as association lists, and
functions that can raise (`assert`, `KeyError`, `AttributeError`) return
`Option`, with `none` standing for the fatal error.
-/

set_option maxHeartbeats 1000000

namespace Docca

abbrev Str := List Char

/-- Python `str.lstrip()`: drop leading whitespace characters. -/
def pyLstrip (s : Str) : Str := s.dropWhile Char.isWhitespace

/-- Python `str.rstrip()`: drop trailing whitespace characters. -/
def pyRstrip (s : Str) : Str := (s.reverse.dropWhile Char.isWhitespace).reverse

/-- Python `str.replace(p, r)`: scan left to right, replacing non-overlapping
occurrences of `p` by `r` and continuing after the replaced text.  The `fuel`
argument (instantiated with `s.length` below, which is always sufficient for a
non-empty pattern) makes the recursion structural so that concrete inputs
evaluate by `decide`/`rfl`. -/
def replaceFuel (p r : Str) : Nat → Str → Str
  | _, [] => []
  | 0, s => s
  | fuel + 1, c :: cs =>
    if p.isPrefixOf (c :: cs) then
      r ++ replaceFuel p r fuel ((c :: cs).drop p.length)
    else
      c :: replaceFuel p r fuel cs

/-- Model of `s.replace(p, r)` from Python (`p` non-empty in every use below). -/
def pyReplace (s p r : Str) : Str := replaceFuel p r s.length s

/-- The fixed, ordered substitution table of `Entity._sanitize_path_segment`
(source lines 536-560), transcribed in the exact order of the chained
`.replace` calls. -/
def sanitizeSteps : List (Str × Str) := [
  (("[".toList), ("-lb".toList)),
  (("]".toList), ("-rb".toList)),
  (("(".toList), ("-lp".toList)),
  ((")".toList), ("-rp".toList)),
  (("<=>".toList), ("-spshp".toList)),
  (("->".toList), ("-arrow".toList)),
  (("operator>".toList), ("operator-gt".toList)),
  (("operator~".toList), ("operator-bnot".toList)),
  (("=".toList), ("-eq".toList)),
  (("!".toList), ("-not".toList)),
  (("+".toList), ("-plus".toList)),
  (("&".toList), ("-and".toList)),
  (("|".toList), ("-or".toList)),
  (("^".toList), ("-xor".toList)),
  (("*".toList), ("-star".toList)),
  (("/".toList), ("-slash".toList)),
  (("%".toList), ("-mod".toList)),
  (("<".toList), ("-lt".toList)),
  ((">".toList), ("-gt".toList)),
  (("~".toList), ("dtor-".toList)),
  ((",".toList), ("-comma".toList)),
  ((":".toList), ("-".toList)),
  ((" ".toList), ("-".toList))]

/-- Apply an ordered sequence of literal substring replacements. -/
def applyReplacements (steps : List (Str × Str)) (s : Str) : Str :=
  steps.foldl (fun acc pr => pyReplace acc pr.1 pr.2) s

/-- Model of `Entity._sanitize_path_segment`: the ordered chain of `.replace` calls. -/
def sanitize_path_segment (s : Str) : Str := applyReplacements sanitizeSteps s

/-- The characters the table maps away.  Each of them has a single-character
replacement step of its own, and every multi-character pattern of the table
contains at least one of them. -/
def sanitizeBadChars : List Char :=
  ['[', ']', '(', ')', '=', '!', '+', '&', '|', '^', '*', '/', '%', '<', '>',
   '~', ',', ':', ' ']

theorem mem_of_isPrefixOf {a : Char} :
    ∀ {p s : Str}, p.isPrefixOf s = true → a ∈ p → a ∈ s := by
  intro p
  induction p with
  | nil => intro s _ ha; cases ha
  | cons x xs ih =>
    intro s hp ha
    cases s with
    | nil => simp [List.isPrefixOf] at hp
    | cons y ys =>
      simp only [List.isPrefixOf, Bool.and_eq_true, beq_iff_eq] at hp
      rcases List.mem_cons.mp ha with rfl | ha
      · exact hp.1 ▸ List.mem_cons_self _ _
      · exact List.mem_cons_of_mem _ (ih hp.2 ha)

theorem mem_replaceFuel {p r : Str} {c : Char} :
    ∀ (fuel : Nat) (s : Str), c ∈ replaceFuel p r fuel s → c ∈ s ∨ c ∈ r := by
  intro fuel
  induction fuel with
  | zero =>
    intro s h
    cases s with
    | nil => simp [replaceFuel] at h
    | cons a as => exact Or.inl (by simpa [replaceFuel] using h)
  | succ f ih =>
    intro s h
    cases s with
    | nil => simp [replaceFuel] at h
    | cons a as =>
      simp only [replaceFuel] at h
      by_cases hp : p.isPrefixOf (a :: as)
      · rw [if_pos hp] at h
        rcases List.mem_append.mp h with hr | hm
        · exact Or.inr hr
        · rcases ih _ hm with hs | hr
          · exact Or.inl (List.drop_subset _ _ hs)
          · exact Or.inr hr
      · rw [if_neg hp] at h
        rcases List.mem_cons.mp h with rfl | hm
        · exact Or.inl (List.mem_cons_self _ _)
        · rcases ih _ hm with hs | hr
          · exact Or.inl (List.mem_cons_of_mem _ hs)
          · exact Or.inr hr

/-- Replacing the single-character pattern `[c]` removes every occurrence of
`c`, provided the replacement does not itself contain `c`. -/
theorem replaceFuel_single_elim {c : Char} {r : Str} (hr : c ∉ r) :
    ∀ (fuel : Nat) (s : Str), s.length ≤ fuel → c ∉ replaceFuel [c] r fuel s := by
  intro fuel
  induction fuel with
  | zero =>
    intro s hle
    have : s = [] := List.length_eq_zero.mp (Nat.le_zero.mp hle)
    subst this
    simp [replaceFuel]
  | succ f ih =>
    intro s hle
    cases s with
    | nil => simp [replaceFuel]
    | cons a as =>
      simp only [replaceFuel]
      by_cases hp : List.isPrefixOf [c] (a :: as)
      · rw [if_pos hp]
        intro hmem
        rcases List.mem_append.mp hmem with h | h
        · exact hr h
        · exact ih _ (by simpa using Nat.le_of_succ_le_succ hle) h
      · rw [if_neg hp]
        intro hmem
        rcases List.mem_cons.mp hmem with rfl | h
        · exact hp (by simp [List.isPrefixOf])
        · exact ih _ (Nat.le_of_succ_le_succ hle) h

/-- A replacement whose pattern contains a character absent from `s` leaves
`s` unchanged. -/
theorem replaceFuel_of_not_mem {p r : Str} {a : Char} (hap : a ∈ p) :
    ∀ (fuel : Nat) (s : Str), a ∉ s → replaceFuel p r fuel s = s := by
  intro fuel
  induction fuel with
  | zero => intro s _; cases s <;> simp [replaceFuel]
  | succ f ih =>
    intro s hs
    cases s with
    | nil => simp [replaceFuel]
    | cons b bs =>
      simp only [replaceFuel]
      by_cases hp : p.isPrefixOf (b :: bs)
      · exact absurd (mem_of_isPrefixOf hp hap) hs
      · rw [if_neg hp, ih bs (fun h => hs (List.mem_cons_of_mem _ h))]

theorem chain_not_mem_of_not_mem {c : Char} :
    ∀ (steps : List (Str × Str)) (s : Str), c ∉ s →
      (∀ pr ∈ steps, c ∉ pr.2) → c ∉ applyReplacements steps s := by
  intro steps
  induction steps with
  | nil => intro s hs _; simpa [applyReplacements] using hs
  | cons pr rest ih =>
    intro s hs hrep
    simp only [applyReplacements, List.foldl_cons]
    have hstep : c ∉ pyReplace s pr.1 pr.2 := by
      intro hmem
      rcases mem_replaceFuel _ _ hmem with h | h
      · exact hs h
      · exact hrep pr (List.mem_cons_self _ _) h
    exact ih _ hstep (fun q hq => hrep q (List.mem_cons_of_mem _ hq))

/-- If the chain contains a step replacing the single character `c` (whose
replacement avoids `c`), and no later step reintroduces `c`, then `c` is
absent from the final output, whatever the input. -/
theorem chain_elim {c : Char} (r : Str) (l₁ l₂ : List (Str × Str))
    (hr : c ∉ r) (hl₂ : ∀ pr ∈ l₂, c ∉ pr.2) (s : Str) :
    c ∉ applyReplacements (l₁ ++ ([c], r) :: l₂) s := by
  have h1 : applyReplacements (l₁ ++ ([c], r) :: l₂) s =
      applyReplacements (([c], r) :: l₂) (applyReplacements l₁ s) := by
    simp [applyReplacements, List.foldl_append]
  rw [h1]
  simp only [applyReplacements, List.foldl_cons]
  have helim : c ∉ pyReplace (applyReplacements l₁ s) [c] r :=
    replaceFuel_single_elim hr _ _ (Nat.le_refl _)
  exact chain_not_mem_of_not_mem l₂ _ helim hl₂

/-- A chain whose every pattern contains a character that `s` lacks leaves `s`
unchanged. -/
theorem chain_id_of_clean :
    ∀ (steps : List (Str × Str)) (s : Str),
      (∀ pr ∈ steps, ∃ a, a ∈ pr.1 ∧ a ∈ sanitizeBadChars) →
      (∀ a ∈ sanitizeBadChars, a ∉ s) →
      applyReplacements steps s = s := by
  intro steps
  induction steps with
  | nil => intro s _ _; simp [applyReplacements]
  | cons pr rest ih =>
    intro s hpat hclean
    obtain ⟨a, hap, hbad⟩ := hpat pr (List.mem_cons_self _ _)
    have hstep : pyReplace s pr.1 pr.2 = s :=
      replaceFuel_of_not_mem hap _ _ (hclean a hbad)
    simp only [applyReplacements, List.foldl_cons, hstep]
    exact ih s (fun q hq => hpat q (List.mem_cons_of_mem _ hq)) hclean

theorem sanitize_elim_at (c : Char) (k : Nat) (r : Str)
    (hsplit : sanitizeSteps = sanitizeSteps.take k ++ ([c], r) :: sanitizeSteps.drop (k + 1))
    (hr : c ∉ r) (hl₂ : ∀ pr ∈ sanitizeSteps.drop (k + 1), c ∉ pr.2) (s : Str) :
    c ∉ sanitize_path_segment s := by
  rw [sanitize_path_segment, hsplit]
  exact chain_elim r _ _ hr hl₂ s

/-- No character of the mapped set survives sanitization. -/
theorem sanitize_clean (s : Str) : ∀ c ∈ sanitizeBadChars, c ∉ sanitize_path_segment s := by
  intro c hc
  simp only [sanitizeBadChars, List.mem_cons, List.not_mem_nil, or_false] at hc
  rcases hc with rfl | rfl | rfl | rfl | rfl | rfl | rfl | rfl | rfl | rfl | rfl
    | rfl | rfl | rfl | rfl | rfl | rfl | rfl | rfl
  · exact sanitize_elim_at _ 0 (("-lb".toList)) rfl (by decide) (by decide) s
  · exact sanitize_elim_at _ 1 (("-rb".toList)) rfl (by decide) (by decide) s
  · exact sanitize_elim_at _ 2 (("-lp".toList)) rfl (by decide) (by decide) s
  · exact sanitize_elim_at _ 3 (("-rp".toList)) rfl (by decide) (by decide) s
  · exact sanitize_elim_at _ 8 (("-eq".toList)) rfl (by decide) (by decide) s
  · exact sanitize_elim_at _ 9 (("-not".toList)) rfl (by decide) (by decide) s
  · exact sanitize_elim_at _ 10 (("-plus".toList)) rfl (by decide) (by decide) s
  · exact sanitize_elim_at _ 11 (("-and".toList)) rfl (by decide) (by decide) s
  · exact sanitize_elim_at _ 12 (("-or".toList)) rfl (by decide) (by decide) s
  · exact sanitize_elim_at _ 13 (("-xor".toList)) rfl (by decide) (by decide) s
  · exact sanitize_elim_at _ 14 (("-star".toList)) rfl (by decide) (by decide) s
  · exact sanitize_elim_at _ 15 (("-slash".toList)) rfl (by decide) (by decide) s
  · exact sanitize_elim_at _ 16 (("-mod".toList)) rfl (by decide) (by decide) s
  · exact sanitize_elim_at _ 17 (("-lt".toList)) rfl (by decide) (by decide) s
  · exact sanitize_elim_at _ 18 (("-gt".toList)) rfl (by decide) (by decide) s
  · exact sanitize_elim_at _ 19 (("dtor-".toList)) rfl (by decide) (by decide) s
  · exact sanitize_elim_at _ 20 (("-comma".toList)) rfl (by decide) (by decide) s
  · exact sanitize_elim_at _ 21 (("-".toList)) rfl (by decide) (by decide) s
  · exact sanitize_elim_at _ 22 (("-".toList)) rfl (by decide) (by decide) s

/-- C1: for every path-segment string, `_sanitize_path_segment` is
deterministic (equal inputs give equal outputs), its output contains no `/`
character, and it is idempotent: applying it twice yields the same string as
applying it once. -/
theorem sanitize_path_segment_deterministic_slashfree_idempotent (s : Str) :
    (∀ t, s = t → sanitize_path_segment s = sanitize_path_segment t)
    ∧ ('/' ∉ sanitize_path_segment s)
    ∧ sanitize_path_segment (sanitize_path_segment s) = sanitize_path_segment s := by
  refine ⟨fun t ht => by rw [ht], sanitize_clean s '/' (by decide), ?_⟩
  rw [show sanitize_path_segment (sanitize_path_segment s) =
        applyReplacements sanitizeSteps (sanitize_path_segment s) from rfl]
  exact chain_id_of_clean sanitizeSteps _ (by decide) (sanitize_clean s)

/-- Witness for C1 at the concrete segment `"operator<=>"`. -/
theorem sanitize_path_segment_witness :
    (sanitize_path_segment ("operator<=>".toList) = sanitize_path_segment ("operator<=>".toList))
    ∧ ('/' ∉ sanitize_path_segment ("operator<=>".toList))
    ∧ sanitize_path_segment (sanitize_path_segment ("operator<=>".toList)) =
        sanitize_path_segment ("operator<=>".toList) := by
  have h := sanitize_path_segment_deterministic_slashfree_idempotent (("operator<=>".toList))
  exact ⟨h.1 _ rfl, h.2.1, h.2.2⟩

/-- The character scan of `Scope.__init__` (source lines 757-786): a
`<`/`>` nesting counter, a pending-colon flag, and an accumulated name.
Outside template brackets a `::` token resets the accumulated name to the
empty string (unconditionally); inside brackets every character, `:` included,
passes through.  After the loop the source runs `if colon: name.append(':')` —
but `name` is a Python `str`, which has no `append` method, so a raw name
ending in a single dangling `:` raises `AttributeError`; that crash is
modelled as `none`. -/
def scanScopeName : Str → Nat → Str → Bool → Option Str
  | [], _, name, colon => if colon then none else some name
  | c :: cs, nesting, name, colon =>
    if colon ∧ c = ':' then
      scanScopeName cs nesting [] false
    else
      let name1 := if colon then name ++ [':'] else name
      if nesting ≠ 0 then
        let nesting1 :=
          if c = '<' then nesting + 1 else if c = '>' then nesting - 1 else nesting
        scanScopeName cs nesting1 (name1 ++ [c]) false
      else if c = ':' then
        scanScopeName cs nesting name1 true
      else
        scanScopeName cs (if c = '<' then nesting + 1 else nesting) (name1 ++ [c]) false

/-- The name normalization performed by `Scope.__init__` on `self.name`. -/
def normalize_scope_name (raw : Str) : Option Str := scanScopeName raw 0 [] false

/-- C4 counterexample: the code resets the accumulated name on every `::`
regardless of whether the new segment matches the previous one, so
`"Foo::Bar"` normalizes to `"Bar"` — it does not keep both segments. -/
theorem scope_name_foo_bar_counterexample :
    normalize_scope_name ("Foo::Bar".toList) = some ("Bar".toList)
    ∧ ("Bar".toList) ≠ ("Foo::Bar".toList) := by decide

theorem scanScopeName_plain_cons {c : Char} (h1 : c ≠ '<') (_h2 : c ≠ '>')
    (h3 : c ≠ ':') (cs : Str) (name : Str) :
    scanScopeName (c :: cs) 0 name false = scanScopeName cs 0 (name ++ [c]) false := by
  simp [scanScopeName, h1, h3]

/-- C4 amended: outside template-argument context a `::` token seen at the
start of a segment resets the accumulated name unconditionally (whether or not
the new segment matches the previous one); `"Foo::Foo"` normalizes to `"Foo"`,
and the angle-bracket content of `"Foo<Bar::Baz>"` is left untouched. -/
theorem scope_name_reset_unconditional :
    (∀ (pre rest : Str), (∀ c ∈ pre, c ≠ '<' ∧ c ≠ '>' ∧ c ≠ ':') →
      normalize_scope_name (pre ++ ':' :: ':' :: rest) = normalize_scope_name rest)
    ∧ normalize_scope_name ("Foo::Foo".toList) = some ("Foo".toList)
    ∧ normalize_scope_name ("Foo<Bar::Baz>".toList) = some ("Foo<Bar::Baz>".toList) := by
  refine ⟨?_, by decide, by decide⟩
  intro pre rest hpre
  rw [normalize_scope_name, normalize_scope_name]
  have key : ∀ (p : Str) (name : Str), (∀ c ∈ p, c ≠ '<' ∧ c ≠ '>' ∧ c ≠ ':') →
      scanScopeName (p ++ ':' :: ':' :: rest) 0 name false = scanScopeName rest 0 [] false := by
    intro p
    induction p with
    | nil =>
      intro name _
      simp [scanScopeName]
    | cons c cs ih =>
      intro name hc
      obtain ⟨h1, h2, h3⟩ := hc c (List.mem_cons_self _ _)
      rw [List.cons_append, scanScopeName_plain_cons h1 h2 h3]
      exact ih _ (fun d hd => hc d (List.mem_cons_of_mem _ hd))
  exact key pre [] hpre

/-- Witness for the amended C4 at `"Foo" ++ "::" ++ "Bar"`. -/
theorem scope_name_reset_unconditional_witness :
    normalize_scope_name (("Foo".toList) ++ ':' :: ':' :: ("Bar".toList)) =
      normalize_scope_name ("Bar".toList) :=
  scope_name_reset_unconditional.1 ("Foo".toList) ("Bar".toList) (by decide)

/-- C5: a raw scope name ending in a single dangling `:` does not retain it;
the code path `if colon: name.append(':')` calls a method that Python strings
do not have, so normalization crashes with `AttributeError` (modelled as
`none`).  A single colon in the middle of the name is retained fine. -/
theorem scope_name_dangling_colon_crashes :
    normalize_scope_name ("Foo:".toList) = none
    ∧ normalize_scope_name ("Foo:Bar".toList) = some ("Foo:Bar".toList) := by decide

/-- A function as seen by `OverloadSet._resort`: `fid` identifies the
function, `brief` stands for `''.join(func._brief.itertext())` (or `''` when
no brief description is present). -/
structure FuncM where
  fid : Nat
  brief : String
deriving DecidableEq

/-- Python `briefs_backwards.index(brief)` wrapped in `try`/`except`: the
index of the first occurrence, or `0` when the element is absent
(source lines 1084-1087). -/
def pyIndexOr0 (l : List String) (b : String) : Nat :=
  match l.findIdx? (fun x => x == b) with
  | some k => k
  | none => 0

/-- One iteration of the loop of `OverloadSet._resort` (source lines
1078-1089): insert the function and its brief at the position of the first
occurrence of an identical brief in the backwards lists (or at the front). -/
def resortStep (st : List FuncM × List String) (f : FuncM) : List FuncM × List String :=
  (st.1.insertIdx (pyIndexOr0 st.2 f.brief) f,
   st.2.insertIdx (pyIndexOr0 st.2 f.brief) f.brief)

/-- Model of `OverloadSet._resort` (source lines 1075-1091): build the backwards lists
by the insertion loop, then reverse. -/
def resort (funcs : List FuncM) : List FuncM :=
  ((funcs.foldl resortStep ([], [])).1).reverse

/-- The funcs list maintained across `OverloadSet.create`: each append pushes
the new function at the end of the current (already resorted) list and
resorts (source lines 1031-1054). -/
def overloadCreateOrder (funcs : List FuncM) : List FuncM :=
  funcs.foldl (fun cur f => resort (cur ++ [f])) []

/-- The distinct elements of `l` in order of first occurrence. -/
def dedupKeepFirst : List String → List String
  | [] => []
  | b :: bs => b :: (dedupKeepFirst bs).filter (fun x => x != b)

/-- The ordering described by the specification: functions clustered by
identical brief string, each cluster placed at the first occurrence of its
brief, encounter order preserved inside each cluster. -/
def briefClusters (funcs : List FuncM) : List FuncM :=
  (dedupKeepFirst (funcs.map (fun f => f.brief))).flatMap
    (fun b => funcs.filter (fun f => f.brief == b))

theorem mem_dedupKeepFirst {b : String} :
    ∀ {l : List String}, b ∈ dedupKeepFirst l ↔ b ∈ l := by
  intro l
  induction l with
  | nil => simp [dedupKeepFirst]
  | cons x xs ih =>
    by_cases hbx : b = x
    · subst hbx; simp [dedupKeepFirst]
    · simp [dedupKeepFirst, List.mem_filter, hbx, ih]

theorem nodup_dedupKeepFirst : ∀ (l : List String), (dedupKeepFirst l).Nodup := by
  intro l
  induction l with
  | nil => simp [dedupKeepFirst]
  | cons x xs ih =>
    refine List.nodup_cons.mpr ⟨?_, ih.filter _⟩
    intro hmem
    have h2 := (List.mem_filter.mp hmem).2
    simp at h2

theorem dedupKeepFirst_cons (x : String) (xs : List String) :
    dedupKeepFirst (x :: xs) = x :: (dedupKeepFirst xs).filter (fun s => s != x) := rfl

theorem dedupKeepFirst_append_not_mem {b : String} :
    ∀ (l : List String), b ∉ l → dedupKeepFirst (l ++ [b]) = dedupKeepFirst l ++ [b] := by
  intro l
  induction l with
  | nil => intro _; simp [dedupKeepFirst]
  | cons x xs ih =>
    intro hb
    have hbx : b ≠ x := fun h => hb (h ▸ List.mem_cons_self _ _)
    have hbxs : b ∉ xs := fun h => hb (List.mem_cons_of_mem _ h)
    rw [List.cons_append, dedupKeepFirst_cons, dedupKeepFirst_cons, ih hbxs,
      List.filter_append, List.cons_append]
    simp [hbx]

theorem dedupKeepFirst_append_mem {b : String} :
    ∀ (l : List String), b ∈ l → dedupKeepFirst (l ++ [b]) = dedupKeepFirst l := by
  intro l
  induction l with
  | nil => intro h; cases h
  | cons x xs ih =>
    intro hb
    rw [List.cons_append, dedupKeepFirst_cons, dedupKeepFirst_cons]
    by_cases hx : b = x
    · subst hx
      by_cases hxs : b ∈ xs
      · rw [ih hxs]
      · rw [dedupKeepFirst_append_not_mem _ hxs, List.filter_append]
        simp
    · rcases List.mem_cons.mp hb with h | h
      · exact absurd h hx
      · rw [ih h]

theorem insertIdx_length_append {α : Type} (l₁ l₂ : List α) (x : α) :
    List.insertIdx l₁.length x (l₁ ++ l₂) = l₁ ++ x :: l₂ := by
  induction l₁ with
  | nil => simp
  | cons a as ih => simp [List.insertIdx_succ_cons, ih]

theorem map_insertIdx {α β : Type} (g : α → β) (x : α) :
    ∀ (n : Nat) (l : List α),
      (List.insertIdx n x l).map g = List.insertIdx n (g x) (l.map g) := by
  intro n
  induction n with
  | zero => intro l; simp [List.insertIdx_zero]
  | succ m ih =>
    intro l
    cases l with
    | nil => simp [List.insertIdx_succ_nil]
    | cons a as => simp [List.insertIdx_succ_cons, ih]

theorem flatMap_congr_mem {α β : Type} {l : List α} {f g : α → List β}
    (h : ∀ a ∈ l, f a = g a) : l.flatMap f = l.flatMap g := by
  induction l with
  | nil => rfl
  | cons x xs ih =>
    simp only [List.flatMap_cons, h x (List.mem_cons_self _ _)]
    rw [ih (fun a ha => h a (List.mem_cons_of_mem _ ha))]

theorem briefClusters_append_new (P : List FuncM) (f : FuncM)
    (hmem : f.brief ∉ P.map (fun x => x.brief)) :
    briefClusters (P ++ [f]) = briefClusters P ++ [f] := by
  rw [briefClusters, briefClusters, List.map_append]
  rw [show (List.map (fun x => x.brief) [f]) = [f.brief] from rfl]
  rw [dedupKeepFirst_append_not_mem _ hmem, List.flatMap_append]
  have h1 : (dedupKeepFirst (P.map (fun x => x.brief))).flatMap
      (fun b => (P ++ [f]).filter (fun x => x.brief == b)) =
      (dedupKeepFirst (P.map (fun x => x.brief))).flatMap
      (fun b => P.filter (fun x => x.brief == b)) := by
    apply flatMap_congr_mem
    intro b hb
    have hbP : b ∈ P.map (fun x => x.brief) := mem_dedupKeepFirst.mp hb
    have hne : f.brief ≠ b := fun h => hmem (h ▸ hbP)
    rw [List.filter_append]
    simp [hne]
  rw [h1]
  have h2 : List.flatMap [f.brief] (fun b => (P ++ [f]).filter (fun x => x.brief == b)) = [f] := by
    simp only [List.flatMap_cons, List.flatMap_nil, List.filter_append, List.append_nil]
    have hP : P.filter (fun x => x.brief == f.brief) = [] := by
      rw [List.filter_eq_nil_iff]
      intro a ha
      simp only [beq_iff_eq]
      exact fun h => hmem (h ▸ List.mem_map_of_mem _ ha)
    rw [hP]
    simp
  rw [h2]

theorem briefClusters_append_mem (P : List FuncM) (f : FuncM)
    (hmem : f.brief ∈ P.map (fun x => x.brief)) :
    briefClusters (P ++ [f]) =
      (dedupKeepFirst (P.map (fun x => x.brief))).flatMap
        (fun b => P.filter (fun x => x.brief == b) ++
          if b = f.brief then [f] else []) := by
  rw [briefClusters, List.map_append]
  rw [show (List.map (fun x => x.brief) [f]) = [f.brief] from rfl]
  rw [dedupKeepFirst_append_mem _ hmem]
  apply flatMap_congr_mem
  intro b _
  rw [List.filter_append]
  congr 1
  by_cases hbf : b = f.brief
  · subst hbf; simp
  · have : f.brief ≠ b := fun h => hbf h.symm
    simp [hbf, this]

theorem resortStep_spec (P : List FuncM) (f : FuncM) :
    resortStep ((briefClusters P).reverse,
        ((briefClusters P).reverse).map (fun x => x.brief)) f
      = ((briefClusters (P ++ [f])).reverse,
         ((briefClusters (P ++ [f])).reverse).map (fun x => x.brief)) := by
  by_cases hmem : f.brief ∈ P.map (fun x => x.brief)
  · -- existing brief: insertion right before the most recent function with
    -- the same brief in the backwards list
    obtain ⟨D₁, D₂, hD⟩ := List.append_of_mem (mem_dedupKeepFirst.mpr hmem)
    have hnd := nodup_dedupKeepFirst (P.map (fun x => x.brief))
    rw [hD] at hnd
    have hnotin : f.brief ∉ D₁ ++ D₂ := by
      rw [List.nodup_middle] at hnd
      exact (List.nodup_cons.mp hnd).1
    have hB1 : f.brief ∉ D₁ := fun h => hnotin (List.mem_append.mpr (Or.inl h))
    have hB2 : f.brief ∉ D₂ := fun h => hnotin (List.mem_append.mpr (Or.inr h))
    have hGP : briefClusters P =
        D₁.flatMap (fun b => P.filter (fun x => x.brief == b)) ++
          (P.filter (fun x => x.brief == f.brief) ++
           D₂.flatMap (fun b => P.filter (fun x => x.brief == b))) := by
      rw [briefClusters, hD, List.flatMap_append, List.flatMap_cons]
    have hGPf : briefClusters (P ++ [f]) =
        D₁.flatMap (fun b => P.filter (fun x => x.brief == b)) ++
          ((P.filter (fun x => x.brief == f.brief) ++ [f]) ++
           D₂.flatMap (fun b => P.filter (fun x => x.brief == b))) := by
      rw [briefClusters_append_mem P f hmem, hD, List.flatMap_append, List.flatMap_cons]
      congr 1
      · apply flatMap_congr_mem
        intro b hb
        have hbne : b ≠ f.brief := fun h => hB1 (h ▸ hb)
        simp [hbne]
      congr 1
      · simp
      · apply flatMap_congr_mem
        intro b hb
        have hbne : b ≠ f.brief := fun h => hB2 (h ▸ hb)
        simp [hbne]
    set A := D₁.flatMap (fun b => P.filter (fun x => x.brief == b)) with hA
    set C := P.filter (fun x => x.brief == f.brief) with hC
    set E := D₂.flatMap (fun b => P.filter (fun x => x.brief == b)) with hE
    -- every element of C has brief f.brief, and C is non-empty
    have hCbrief : ∀ x ∈ C, x.brief = f.brief := by
      intro x hx
      have h2 := (List.mem_filter.mp hx).2
      simpa using h2
    have hCne : C ≠ [] := by
      obtain ⟨x, hxP, hxb⟩ := List.mem_map.mp hmem
      intro hnil
      have hxC : x ∈ C := List.mem_filter.mpr ⟨hxP, by simpa using hxb⟩
      rw [hnil] at hxC
      cases hxC
    -- elements of E have briefs from D₂, none equal to f.brief
    have hEbrief : ∀ x ∈ E, (x.brief == f.brief) = false := by
      intro x hx
      rw [hE, List.mem_flatMap] at hx
      obtain ⟨b, hb, hxf⟩ := hx
      have hxb : x.brief = b := by
        have h2 := (List.mem_filter.mp hxf).2
        simpa using h2
      have hne : x.brief ≠ f.brief := by
        intro h
        have hbf : b = f.brief := by rw [← hxb, h]
        exact hB2 (hbf ▸ hb)
      simpa using hne
    -- the backwards list decomposes around the reversed f.brief-cluster
    have hrev : (briefClusters P).reverse = E.reverse ++ (C.reverse ++ A.reverse) := by
      rw [hGP]
      simp [List.reverse_append, List.append_assoc]
    obtain ⟨y, ys, hCy⟩ : ∃ y ys, C.reverse = y :: ys := by
      cases hc : C.reverse with
      | nil => exact absurd (List.reverse_eq_nil_iff.mp hc) hCne
      | cons y ys => exact ⟨y, ys, rfl⟩
    have hybrief : (y.brief == f.brief) = true := by
      have hyC : y ∈ C := by
        rw [← List.mem_reverse, hCy]
        exact List.mem_cons_self _ _
      simpa using hCbrief y hyC
    have hnoneE : (E.reverse.map (fun x => x.brief)).findIdx? (fun x => x == f.brief)
        = none := by
      rw [List.findIdx?_eq_none_iff]
      intro b hb
      rw [List.mem_map] at hb
      obtain ⟨x, hx, rfl⟩ := hb
      rw [List.mem_reverse] at hx
      exact hEbrief x hx
    have hfind : (((briefClusters P).reverse).map (fun x => x.brief)).findIdx?
        (fun x => x == f.brief) = some E.length := by
      rw [hrev, List.map_append, List.findIdx?_append, hnoneE, hCy]
      simp [hybrief]
    have hidx : pyIndexOr0 (((briefClusters P).reverse).map (fun x => x.brief)) f.brief
        = E.length := by
      rw [pyIndexOr0, hfind]
    have h1 : ((briefClusters P).reverse).insertIdx
        (pyIndexOr0 (((briefClusters P).reverse).map (fun x => x.brief)) f.brief) f
        = (briefClusters (P ++ [f])).reverse := by
      rw [hidx, hrev]
      rw [show E.length = E.reverse.length by rw [List.length_reverse]]
      rw [insertIdx_length_append, hGPf]
      simp [List.reverse_append, List.append_assoc]
    simp only [resortStep, Prod.mk.injEq]
    exact ⟨h1, by rw [← map_insertIdx, h1]⟩
  · -- brand-new brief: inserted at the very front of the backwards list
    have hnone : (((briefClusters P).reverse).map (fun x => x.brief)).findIdx?
        (fun x => x == f.brief) = none := by
      rw [List.findIdx?_eq_none_iff]
      intro b hb
      rw [List.mem_map] at hb
      obtain ⟨x, hx, rfl⟩ := hb
      rw [List.mem_reverse] at hx
      rw [briefClusters, List.mem_flatMap] at hx
      obtain ⟨b', _, hxf⟩ := hx
      have hxP : x ∈ P := (List.mem_filter.mp hxf).1
      have hne : x.brief ≠ f.brief := fun h => hmem (h ▸ List.mem_map_of_mem _ hxP)
      simpa using hne
    have hidx : pyIndexOr0 (((briefClusters P).reverse).map (fun x => x.brief)) f.brief
        = 0 := by
      rw [pyIndexOr0, hnone]
    have h1 : ((briefClusters P).reverse).insertIdx
        (pyIndexOr0 (((briefClusters P).reverse).map (fun x => x.brief)) f.brief) f
        = (briefClusters (P ++ [f])).reverse := by
      rw [hidx, List.insertIdx_zero, briefClusters_append_new P f hmem,
        List.reverse_append]
      simp
    simp only [resortStep, Prod.mk.injEq]
    exact ⟨h1, by rw [← map_insertIdx, h1]⟩

theorem resort_foldl_spec (funcs : List FuncM) :
    funcs.foldl resortStep ([], []) =
      ((briefClusters funcs).reverse,
       ((briefClusters funcs).reverse).map (fun x => x.brief)) := by
  induction funcs using List.reverseRecOn with
  | nil => rfl
  | append_singleton P f ih =>
    rw [List.foldl_append, ih, List.foldl_cons, List.foldl_nil, resortStep_spec]

/-- C3: `OverloadSet` display ordering clusters functions sharing an
identical brief string, preserving encounter order within each cluster and
placing each cluster at its first occurrence (`resort` equals the clustered
order `briefClusters` on every input); in particular the repeated
create/append/resort process on A(brief "x"), B(brief "y"), C(brief "x")
ends in the order A, C, B. -/
theorem resort_clusters_by_brief :
    (∀ funcs : List FuncM, resort funcs = briefClusters funcs)
    ∧ overloadCreateOrder [⟨0, "x"⟩, ⟨1, "y"⟩, ⟨2, "x"⟩]
        = [⟨0, "x"⟩, ⟨2, "x"⟩, ⟨1, "y"⟩] := by
  constructor
  · intro funcs
    rw [resort, resort_foldl_spec, List.reverse_reverse]
  · decide

/-- First-match association lookup, modelling Python `dict` access over our
association-list dictionaries. -/
def lookupA {α : Type} : List (String × α) → String → Option α
  | [], _ => none
  | (k, v) :: rest, key => if k = key then some v else lookupA rest key

theorem lookupA_append_left {α : Type} {l₁ l₂ : List (String × α)} {k : String} {v : α} :
    lookupA l₁ k = some v → lookupA (l₁ ++ l₂) k = some v := by
  induction l₁ with
  | nil => intro h; cases h
  | cons p rest ih =>
    intro h
    rw [List.cons_append]
    rw [lookupA] at h ⊢
    by_cases hk : p.1 = k
    · rw [if_pos hk] at h ⊢; exact h
    · rw [if_neg hk] at h ⊢; exact ih h

theorem lookupA_append_right {α : Type} {l₁ l₂ : List (String × α)} {k : String} :
    lookupA l₁ k = none → lookupA (l₁ ++ l₂) k = lookupA l₂ k := by
  induction l₁ with
  | nil => intro _; rfl
  | cons p rest ih =>
    intro h
    rw [List.cons_append]
    rw [lookupA] at h ⊢
    by_cases hk : p.1 = k
    · rw [if_pos hk] at h; cases h
    · rw [if_neg hk] at h ⊢; exact ih h

theorem lookupA_none_of_isSome_eq_false {α : Type} {l : List (String × α)} {k : String}
    (h : (lookupA l k).isSome = false) : lookupA l k = none := by
  cases hl : lookupA l k with
  | none => rfl
  | some v => rw [hl] at h; simp at h

/-- The fields of a nested entity that `Compound.update_scopes` touches: its
declared name, plus the `scope` back-reference and `access` level the pass
assigns. -/
structure ChildEnt where
  name : String
  scope : Option String
  access : String

/-- Model of `Compound.update_scopes` (source lines 672-682): for each recorded
`(access, refid)` pair, look the refid up in the symbol table (a missing key
is a fatal `KeyError`, modelled as `none`), set the child's scope
back-reference and access level, and insert it into the parent's member table
under its name after an `assert` that the name is not already taken. -/
def update_scopes (parentId : String) :
    List (String × String) → List (String × ChildEnt) → List (String × ChildEnt) →
      Option (List (String × ChildEnt))
  | [], _, members => some members
  | (access, refid) :: rest, index, members =>
    match lookupA index refid with
    | none => none
    | some e =>
      if (lookupA members e.name).isSome then none
      else
        update_scopes parentId rest index
          (members ++ [(e.name, ChildEnt.mk e.name (some parentId) access)])

theorem update_scopes_shape (parentId : String) :
    ∀ (nested : List (String × String)) (index : List (String × ChildEnt))
      (members m' : List (String × ChildEnt)),
      update_scopes parentId nested index members = some m' →
      ∃ ext, m' = members ++ ext := by
  intro nested
  induction nested with
  | nil =>
    intro index members m' h
    simp only [update_scopes, Option.some.injEq] at h
    exact ⟨[], by simp [h]⟩
  | cons p rest ih =>
    intro index members m' h
    obtain ⟨access, refid⟩ := p
    simp only [update_scopes] at h
    cases hlook : lookupA index refid with
    | none => simp [hlook] at h
    | some e =>
      simp only [hlook] at h
      by_cases hcol : (lookupA members e.name).isSome
      · rw [if_pos hcol] at h; cases h
      · rw [if_neg hcol] at h
        obtain ⟨ext, hext⟩ := ih _ _ _ h
        exact ⟨(e.name, ChildEnt.mk e.name (some parentId) access) :: ext, by
          rw [hext, List.append_assoc]; rfl⟩

theorem update_scopes_dangling (parentId : String) :
    ∀ (nested : List (String × String)) (index : List (String × ChildEnt))
      (members : List (String × ChildEnt)) (a r : String),
      (a, r) ∈ nested → lookupA index r = none →
      update_scopes parentId nested index members = none := by
  intro nested
  induction nested with
  | nil => intro _ _ _ _ h _; cases h
  | cons p rest ih =>
    intro index members a r hmem hlook
    obtain ⟨access, refid⟩ := p
    rcases List.mem_cons.mp hmem with heq | hmem2
    · simp only [Prod.mk.injEq] at heq
      obtain ⟨rfl, rfl⟩ := heq
      simp only [update_scopes, hlook]
    · cases hl : lookupA index refid with
      | none => simp only [update_scopes, hl]
      | some e2 =>
        simp only [update_scopes, hl]
        by_cases hc2 : (lookupA members e2.name).isSome
        · rw [if_pos hc2]
        · rw [if_neg hc2]
          exact ih _ _ a r hmem2 hlook

theorem update_scopes_collision (parentId : String) :
    ∀ (nested : List (String × String)) (index : List (String × ChildEnt))
      (members : List (String × ChildEnt)) (a r : String) (e : ChildEnt),
      (a, r) ∈ nested → lookupA index r = some e →
      (lookupA members e.name).isSome = true →
      update_scopes parentId nested index members = none := by
  intro nested
  induction nested with
  | nil => intro _ _ _ _ _ h _ _; cases h
  | cons p rest ih =>
    intro index members a r e hmem hlook hcol
    obtain ⟨access, refid⟩ := p
    rcases List.mem_cons.mp hmem with heq | hmem2
    · simp only [Prod.mk.injEq] at heq
      obtain ⟨rfl, rfl⟩ := heq
      simp only [update_scopes, hlook]
      rw [if_pos hcol]
    · cases hl : lookupA index refid with
      | none => simp only [update_scopes, hl]
      | some e2 =>
        simp only [update_scopes, hl]
        by_cases hc2 : (lookupA members e2.name).isSome
        · rw [if_pos hc2]
        · rw [if_neg hc2]
          apply ih _ _ a r e hmem2 hlook
          obtain ⟨v, hv⟩ := Option.isSome_iff_exists.mp hcol
          rw [lookupA_append_left hv]
          rfl

theorem update_scopes_success (parentId : String) :
    ∀ (nested : List (String × String)) (index : List (String × ChildEnt))
      (members m' : List (String × ChildEnt)),
      update_scopes parentId nested index members = some m' →
      ∀ a r, (a, r) ∈ nested →
        ∃ e, lookupA index r = some e ∧
          lookupA m' e.name = some (ChildEnt.mk e.name (some parentId) a) := by
  intro nested
  induction nested with
  | nil => intro _ _ _ _ _ _ h; cases h
  | cons p rest ih =>
    intro index members m' h a r hmem
    obtain ⟨access, refid⟩ := p
    simp only [update_scopes] at h
    cases hlook : lookupA index refid with
    | none => simp [hlook] at h
    | some e =>
      simp only [hlook] at h
      by_cases hcol : (lookupA members e.name).isSome
      · rw [if_pos hcol] at h; cases h
      · rw [if_neg hcol] at h
        rcases List.mem_cons.mp hmem with heq | hmem2
        · simp only [Prod.mk.injEq] at heq
          obtain ⟨rfl, rfl⟩ := heq
          refine ⟨e, hlook, ?_⟩
          obtain ⟨ext, hext⟩ := update_scopes_shape parentId rest index _ m' h
          have hfalse : (lookupA members e.name).isSome = false := by
            simpa using hcol
          have hnone := lookupA_none_of_isSome_eq_false hfalse
          rw [hext, List.append_assoc, lookupA_append_right hnone]
          simp [lookupA]
        · exact ih _ _ _ h a r hmem2

/-- C8: during the Scope Wiring Pass, for every recorded `(access, refid)`
pair of a Compound: a refid missing from the symbol table makes the whole
pass fail fatally (no silent skip), as does a name collision with the
parent's member table; otherwise every referenced child ends up in the
parent's member table under its name with its scope back-reference and
access level set. -/
theorem update_scopes_fatal_or_inserts
    (parentId : String) (nested : List (String × String))
    (index : List (String × ChildEnt)) (members : List (String × ChildEnt)) :
    (∀ a r, (a, r) ∈ nested → lookupA index r = none →
      update_scopes parentId nested index members = none)
    ∧ (∀ a r e, (a, r) ∈ nested → lookupA index r = some e →
      (lookupA members e.name).isSome = true →
      update_scopes parentId nested index members = none)
    ∧ (∀ m', update_scopes parentId nested index members = some m' →
      ∀ a r, (a, r) ∈ nested →
        ∃ e, lookupA index r = some e ∧
          lookupA m' e.name = some (ChildEnt.mk e.name (some parentId) a)) :=
  ⟨fun a r hm hl => update_scopes_dangling parentId nested index members a r hm hl,
   fun a r e hm hl hc => update_scopes_collision parentId nested index members a r e hm hl hc,
   fun m' h a r hm => update_scopes_success parentId nested index members m' h a r hm⟩

/-- Witness for C8: a dangling refid aborts the pass. -/
theorem update_scopes_fatal_or_inserts_witness :
    update_scopes ("P") [("private", "ghost")] [] [] = none :=
  (update_scopes_fatal_or_inserts ("P") [("private", "ghost")] [] []).1
    ("private") ("ghost") (List.mem_cons_self _ _) rfl

/-- Model of `Enum.__init__`'s enumerator loop (source lines 878-883) combined with
`Enumerator.__init__`'s scope choice (source line 1117): one enumerator is
created per `enumvalue` child, in order; its scope is the enum itself when
the enum is scoped (`enum class`), the enclosing scope otherwise; each is
inserted into that scope's member table, with an `assert` that the name is
not already present.  Tables map enumerator names to enumerator names; the
returned first component models `self.objects`. -/
def enumAttach :
    Bool → List String → List (String × String) → List (String × String) →
      Option (List String × List (String × String) × List (String × String))
  | _, [], own, encl => some ([], own, encl)
  | true, v :: vs, own, encl =>
    if (lookupA own v).isSome then none
    else
      match enumAttach true vs (own ++ [(v, v)]) encl with
      | none => none
      | some (os, own1, encl1) => some (v :: os, own1, encl1)
  | false, v :: vs, own, encl =>
    if (lookupA encl v).isSome then none
    else
      match enumAttach false vs own (encl ++ [(v, v)]) with
      | none => none
      | some (os, own1, encl1) => some (v :: os, own1, encl1)

theorem enumAttach_scoped (vals : List String) :
    ∀ (own encl : List (String × String)) (os : List String)
      (own1 encl1 : List (String × String)),
      enumAttach true vals own encl = some (os, own1, encl1) →
      os = vals ∧ encl1 = encl ∧ (∃ ext, own1 = own ++ ext)
        ∧ ∀ v ∈ vals, lookupA own1 v = some v := by
  induction vals with
  | nil =>
    intro own encl os own1 encl1 h
    simp only [enumAttach, Option.some.injEq, Prod.mk.injEq] at h
    obtain ⟨h1, h2, h3⟩ := h
    exact ⟨h1.symm, h3.symm, ⟨[], by simp [h2]⟩, fun v hv => absurd hv (List.not_mem_nil v)⟩
  | cons v vs ih =>
    intro own encl os own1 encl1 h
    simp only [enumAttach] at h
    by_cases hcol : (lookupA own v).isSome
    · rw [if_pos hcol] at h; cases h
    · rw [if_neg hcol] at h
      cases hrec : enumAttach true vs (own ++ [(v, v)]) encl with
      | none => simp [hrec] at h
      | some triple =>
        obtain ⟨os2, own2, encl2⟩ := triple
        simp only [hrec] at h
        simp only [Option.some.injEq, Prod.mk.injEq] at h
        obtain ⟨h1, h2, h3⟩ := h
        obtain ⟨hos, hencl, ⟨ext, hext⟩, hlk⟩ := ih _ _ _ _ _ hrec
        have hfalse : (lookupA own v).isSome = false := by simpa using hcol
        have hnone := lookupA_none_of_isSome_eq_false hfalse
        refine ⟨by rw [← h1, hos], by rw [← h3, hencl], ?_, ?_⟩
        · exact ⟨(v, v) :: ext, by rw [← h2, hext, List.append_assoc]; rfl⟩
        · intro v2 hv2
          rcases List.mem_cons.mp hv2 with rfl | hv2
          · rw [← h2, hext, List.append_assoc, lookupA_append_right hnone]
            simp [lookupA]
          · rw [← h2]
            exact hlk v2 hv2

theorem enumAttach_unscoped (vals : List String) :
    ∀ (own encl : List (String × String)) (os : List String)
      (own1 encl1 : List (String × String)),
      enumAttach false vals own encl = some (os, own1, encl1) →
      os = vals ∧ own1 = own ∧ (∃ ext, encl1 = encl ++ ext)
        ∧ ∀ v ∈ vals, lookupA encl1 v = some v := by
  induction vals with
  | nil =>
    intro own encl os own1 encl1 h
    simp only [enumAttach, Option.some.injEq, Prod.mk.injEq] at h
    obtain ⟨h1, h2, h3⟩ := h
    exact ⟨h1.symm, h2.symm, ⟨[], by simp [h3]⟩, fun v hv => absurd hv (List.not_mem_nil v)⟩
  | cons v vs ih =>
    intro own encl os own1 encl1 h
    simp only [enumAttach] at h
    by_cases hcol : (lookupA encl v).isSome
    · rw [if_pos hcol] at h; cases h
    · rw [if_neg hcol] at h
      cases hrec : enumAttach false vs own (encl ++ [(v, v)]) with
      | none => simp [hrec] at h
      | some triple =>
        obtain ⟨os2, own2, encl2⟩ := triple
        simp only [hrec] at h
        simp only [Option.some.injEq, Prod.mk.injEq] at h
        obtain ⟨h1, h2, h3⟩ := h
        obtain ⟨hos, hown, ⟨ext, hext⟩, hlk⟩ := ih _ _ _ _ _ hrec
        have hfalse : (lookupA encl v).isSome = false := by simpa using hcol
        have hnone := lookupA_none_of_isSome_eq_false hfalse
        refine ⟨by rw [← h1, hos], by rw [← h2, hown], ?_, ?_⟩
        · exact ⟨(v, v) :: ext, by rw [← h3, hext, List.append_assoc]; rfl⟩
        · intro v2 hv2
          rcases List.mem_cons.mp hv2 with rfl | hv2
          · rw [← h3, hext, List.append_assoc, lookupA_append_right hnone]
            simp [lookupA]
          · rw [← h3]
            exact hlk v2 hv2

/-- C6: one Enumerator child is created per declared `enumvalue` element, in
declaration order; for a scoped enum (`enum class`) each enumerator is
inserted into (and reachable by bare name in) the enum's own member table,
the enclosing scope's table untouched; for an unscoped (C-style) enum each is
inserted into the enclosing scope's member table, the enum's own table
untouched. -/
theorem enum_attach_scoped_vs_unscoped :
    (∀ vals own encl os own1 encl1,
      enumAttach true vals own encl = some (os, own1, encl1) →
      os = vals ∧ encl1 = encl ∧ ∀ v ∈ vals, lookupA own1 v = some v)
    ∧ (∀ vals own encl os own1 encl1,
      enumAttach false vals own encl = some (os, own1, encl1) →
      os = vals ∧ own1 = own ∧ ∀ v ∈ vals, lookupA encl1 v = some v) :=
  ⟨fun vals own encl os own1 encl1 h =>
      (enumAttach_scoped vals own encl os own1 encl1 h).imp id
        (fun h2 => h2.imp id (fun h3 => h3.2)),
   fun vals own encl os own1 encl1 h =>
      (enumAttach_unscoped vals own encl os own1 encl1 h).imp id
        (fun h2 => h2.imp id (fun h3 => h3.2))⟩

/-- Witness for C6: the unscoped side at one enumvalue `"red"`. -/
theorem enum_attach_scoped_vs_unscoped_witness :
    lookupA [("red", "red")] "red" = some ("red") :=
  ((enum_attach_scoped_vs_unscoped.2 ["red"] [] [] ["red"] [] [("red", "red")] rfl).2.2)
    "red" (List.mem_cons_self _ _)

/-- An `xml.etree.ElementTree.Element`: tag, attributes, leading text, tail
text (text following the closing tag, stored on the element itself as in
ElementTree), and child elements.  An absent text/tail is modelled as `""`:
the source only ever tests both for Python truthiness. -/
inductive Elem where
  | mk : String → List (String × String) → String → String → List Elem → Elem

def Elem.tag : Elem → String
  | .mk t _ _ _ _ => t

def Elem.attrs : Elem → List (String × String)
  | .mk _ a _ _ _ => a

def Elem.text : Elem → String
  | .mk _ _ tx _ _ => tx

def Elem.tail : Elem → String
  | .mk _ _ _ tl _ => tl

def Elem.children : Elem → List Elem
  | .mk _ _ _ _ cs => cs

/-- Python `element.get(name)`. -/
def Elem.get (e : Elem) (a : String) : Option String := lookupA e.attrs a

/-- Python truthiness of an optional string: `None` and `""` are falsy. -/
def truthy : Option String → Option String
  | none => none
  | some s => if s = "" then none else some s

/-- Python `int(x or 1)` as used by `Cell.__init__` (source lines 263-264):
an absent/empty attribute gives 1, a non-numeric string is a fatal
`ValueError`. -/
def pyInt1 (a : Option String) : Option Int :=
  match truthy a with
  | none => some 1
  | some s => s.toInt?

/-- Python truthiness of `attr or False` (`Cell.is_header`). -/
def pyTruthyB (a : Option String) : Bool :=
  match truthy a with
  | none => false
  | some _ => true

/-- The Phrase tree of the content model.  Resolved entities are abstract
tokens (`Nat`, the values of the symbol table); `plain` is a bare `Phrase`
with no entity binding. -/
inductive PhraseM where
  | text : String → PhraseM
  | linebreak : PhraseM
  | emphasised : List PhraseM → PhraseM
  | strong : List PhraseM → PhraseM
  | monospaced : List PhraseM → PhraseM
  | entityRef : Nat → List PhraseM → PhraseM
  | urlLink : String → List PhraseM → PhraseM
  | plain : List PhraseM → PhraseM

/-- One `parameternamelist` entry: resolved type and name phrases plus the
declared direction. -/
structure ParamItemM where
  type : List PhraseM
  name : List PhraseM
  direction : Option String

mutual
/-- The Block tree: Paragraph, List (ordering kind and raw items), Section
(kind, title parts, body), CodeBlock, ParameterList, Table (cols attribute,
caption, rows). -/
inductive BlockM where
  | paragraph : List PhraseM → BlockM
  | list : Option String → List (List BlockM) → BlockM
  | section : Option String → List PhraseM → List BlockM → BlockM
  | codeBlock : List String → BlockM
  | parameterList : Option String → List ParamDescrM → BlockM
  | table : Option String → Option (List PhraseM) → List (List CellM) → BlockM
/-- Model of `ParameterDescription`: a description body plus its `ParameterItem`s. -/
inductive ParamDescrM where
  | mk : List BlockM → List ParamItemM → ParamDescrM
/-- Model of `Cell`: blocks, col span, row span, is-header, horizontal and vertical
alignment, width, role. -/
inductive CellM where
  | mk : List BlockM → Int → Int → Bool → Option String → Option String →
      Option String → Option String → CellM
end

/-- The shared symbol table: entity id to entity token. -/
abbrev Index := List (String × Nat)

/-- Model of `remove_endlines` (source lines 510-515): delete every `\r` and `\n`. -/
def remove_endlines (s : String) : String :=
  String.mk (s.data.filter (fun c => c != '\r' && c != '\n'))

/-- Python `str.lstrip()` on `String`. -/
def pyLstripS (s : String) : String :=
  String.mk (s.data.dropWhile Char.isWhitespace)

/-- Python `str.rstrip()` on `String`. -/
def pyRstripS (s : String) : String :=
  String.mk ((s.data.reverse.dropWhile Char.isWhitespace).reverse)

/-- First step of `finish_paragraph` (source lines 286-290): lstrip the
first run when it is text, dropping it when emptied. -/
def stripFirstRun : List PhraseM → List PhraseM
  | PhraseM.text s :: rest =>
    if pyLstripS s = "" then rest else PhraseM.text (pyLstripS s) :: rest
  | cur => cur

/-- Second step of `finish_paragraph` (source lines 291-295) on the reversed
list: rstrip the last run when it is text, dropping it when emptied. -/
def stripLastRunRev : List PhraseM → List PhraseM
  | PhraseM.text s :: rest =>
    if pyRstripS s = "" then rest else PhraseM.text (pyRstripS s) :: rest
  | cur => cur

def stripLastRun (cur : List PhraseM) : List PhraseM :=
  (stripLastRunRev cur.reverse).reverse

def isBreak : PhraseM → Bool
  | PhraseM.linebreak => true
  | _ => false

/-- The loop of `finish_paragraph` at source lines 297-301: lstrip every
text run immediately following a Linebreak; `prevBreak` records whether the
previous part was a Linebreak (the first part is never stripped). -/
def lstripAfterBreaks (prevBreak : Bool) : List PhraseM → List PhraseM
  | [] => []
  | p :: rest =>
    (if prevBreak then
        match p with
        | PhraseM.text s => PhraseM.text (pyLstripS s)
        | q => q
      else p) :: lstripAfterBreaks (isBreak p) rest

/-- Model of `finish_paragraph` (source lines 285-306): the flushed blocks, `[]` or
one Paragraph. -/
def finish_paragraph (curPara : List PhraseM) : List BlockM :=
  let c2 := stripLastRun (stripFirstRun curPara)
  let c3 := lstripAfterBreaks false c2
  if c3.isEmpty then [] else [BlockM.paragraph c3]

/-- Append `remove_endlines(child.tail)` as a text run when the raw tail is
truthy (source lines 327-328 and 444-445). -/
def appendTail (c : Elem) (cur : List PhraseM) : List PhraseM :=
  if c.tail ≠ "" then cur ++ [PhraseM.text (remove_endlines c.tail)] else cur

/-- Model of `phrase_content` (source lines 433-447) with the dispatch table of
`make_phrase` (source lines 449-459) inlined for the children: the element's
text followed by, for each child, its phrase and (when truthy) its tail.
`fuel` bounds the recursion depth through child elements; every use below
supplies enough.  A fatal condition — the `assert` on a missing `ref` id or
`ulink` url, the `KeyError` of an unknown phrase tag, or a missing reference
without `allow_missing_refs` (where the source returns Python `None` into
the part list) — is `none`. -/
def phrase_content : Nat → Elem → Index → Bool → Option (List PhraseM)
  | 0, _, _, _ => none
  | fuel + 1, e, idx, allow =>
    let init := if e.text ≠ "" then [PhraseM.text (remove_endlines e.text)] else []
    e.children.foldlM (fun acc c => do
      let ph ←
        match c.tag with
        | "bold" => (phrase_content fuel c idx allow).map PhraseM.strong
        | "computeroutput" => (phrase_content fuel c idx allow).map PhraseM.monospaced
        | "verbatim" => (phrase_content fuel c idx allow).map PhraseM.monospaced
        | "emphasis" => (phrase_content fuel c idx allow).map PhraseM.emphasised
        | "ulink" =>
          match truthy (c.get ("url")) with
          | none => none
          | some url => (phrase_content fuel c idx allow).map (PhraseM.urlLink url)
        | "linebreak" => some PhraseM.linebreak
        | "ref" =>
          match truthy (c.get ("refid")) with
          | none => none
          | some rid =>
            match lookupA idx rid with
            | some ent => (phrase_content fuel c idx allow).map (PhraseM.entityRef ent)
            | none =>
              if allow then (phrase_content fuel c idx true).map PhraseM.plain
              else none
        | _ => none
      pure (appendTail c (acc ++ [ph]))) init

/-- Model of `make_phrase` (source lines 449-459): the closed tag dispatch. -/
def make_phrase (fuel : Nat) (c : Elem) (idx : Index) (allow : Bool) : Option PhraseM :=
  match c.tag with
  | "bold" => (phrase_content fuel c idx allow).map PhraseM.strong
  | "computeroutput" => (phrase_content fuel c idx allow).map PhraseM.monospaced
  | "verbatim" => (phrase_content fuel c idx allow).map PhraseM.monospaced
  | "emphasis" => (phrase_content fuel c idx allow).map PhraseM.emphasised
  | "ulink" =>
    match truthy (c.get ("url")) with
    | none => none
    | some url => (phrase_content fuel c idx allow).map (PhraseM.urlLink url)
  | "linebreak" => some PhraseM.linebreak
  | "ref" =>
    match truthy (c.get ("refid")) with
    | none => none
    | some rid =>
      match lookupA idx rid with
      | some ent => (phrase_content fuel c idx allow).map (PhraseM.entityRef ent)
      | none =>
        if allow then (phrase_content fuel c idx true).map PhraseM.plain
        else none
  | _ => none

/-- Python `refid or element.get('refid')` (source line 484): the explicit
argument when truthy, otherwise the attribute. -/
def pyOrAttr (refidArg : Option String) (e : Elem) : Option String :=
  match truthy refidArg with
  | some r => some r
  | none => truthy (e.get ("refid"))

/-- Model of `make_entity_reference` (source lines 481-495): `assert refid` fails on a
missing/empty id; a registered id yields an `EntityRef` wrapping the
registered entity; an unregistered id yields Python `None` (modelled `none`)
unless `allow_missing_refs`, in which case a plain unlinked `Phrase` of the
element's content. -/
def make_entity_reference (fuel : Nat) (e : Elem) (idx : Index)
    (refidArg : Option String) (allow : Bool) : Option PhraseM :=
  match pyOrAttr refidArg e with
  | none => none
  | some rid =>
    match lookupA idx rid with
    | some ent => (phrase_content fuel e idx allow).map (PhraseM.entityRef ent)
    | none =>
      if allow then (phrase_content fuel e idx true).map PhraseM.plain
      else none

/-- Model of `text_with_refs` (source lines 497-498): the parts of the returned
`Phrase` (`phrase_content` with `allow_missing_refs=True`; a `None` element
gives an empty phrase). -/
def text_with_refs (fuel : Nat) (oe : Option Elem) (idx : Index) :
    Option (List PhraseM) :=
  match oe with
  | none => some []
  | some e => phrase_content fuel e idx true

/-- Model of `resolve_type` (source lines 500-508): `text_with_refs`, then, when the
result is non-empty and its first part is a string starting with
`"constexpr"`, drop that 9-character prefix and lstrip the remainder of the
first part; everything else is returned unchanged. -/
def resolve_type (fuel : Nat) (oe : Option Elem) (idx : Index) :
    Option (List PhraseM) :=
  match text_with_refs fuel oe idx with
  | none => none
  | some parts =>
    match parts with
    | PhraseM.text s :: rest =>
      if ("constexpr".data).isPrefixOf s.data then
        some (PhraseM.text (pyLstripS (String.mk (s.data.drop 9))) :: rest)
      else some parts
    | _ => some parts

/-- Model of `make_codeblock` (source lines 383-404): one concatenated string per
`codeline` built from its `highlight` children: the highlight's text, `sp`
children as spaces, `ref` children's text, every truthy tail; a child of
another tag contributes only its tail.  Wrong tags at the `codeline` or
`highlight` level are fatal `assert`s. -/
def make_codeblock (e : Elem) : Option (List String) :=
  e.children.mapM (fun line =>
    if line.tag = "codeline" then
      line.children.foldlM (fun text hl =>
        if hl.tag = "highlight" then
          let t1 := text ++ hl.text
          let t2 := hl.children.foldl (fun t part =>
            let t3 := if part.tag = "sp" then t ++ " "
              else if part.tag = "ref" then t ++ part.text
              else t
            if part.tail ≠ "" then t3 ++ part.tail else t3) t1
          some (if hl.tail ≠ "" then t2 ++ hl.tail else t2)
        else none) ""
    else none)

/-- Model of `make_blocks` (source lines 278-331) for a present element, with the
block constructors `make_list` (333-338), `make_section` (368-381),
`make_parameters` (340-366) and `make_table` (406-431) inlined at their
recursive calls (the standalone wrappers below restate them).  The fold
state is `(result, cur_para)`: block-level children flush the paragraph
accumulator, a nested `para` expands recursively in place, and any other
child is an inline phrase followed by its tail text. -/
def make_blocks : Nat → Elem → Index → Option (List BlockM)
  | 0, _, _ => none
  | fuel + 1, e, idx => do
    let cur0 : List PhraseM :=
      if e.text ≠ "" then [PhraseM.text (remove_endlines e.text)] else []
    let st ← e.children.foldlM (fun (st : List BlockM × List PhraseM) c => do
      let (result, curPara) := st
      if c.tag = "itemizedlist" then do
        let items ← c.children.mapM (fun li =>
          if li.tag = "listitem" then make_blocks fuel li idx else none)
        pure (result ++ finish_paragraph curPara ++ [BlockM.list (c.get ("type")) items],
          appendTail c [])
      else if c.tag = "simplesect" then do
        let title ←
          match c.children with
          | t :: _ =>
            if t.tag = "title" then phrase_content fuel t idx false
            else pure ([] : List PhraseM)
          | [] => pure ([] : List PhraseM)
        let parts ← c.children.foldlM (fun acc ch =>
          if ch.tag = "para" then do
            let bs ← make_blocks fuel ch idx
            pure (acc ++ bs)
          else pure acc) ([] : List BlockM)
        pure (result ++ finish_paragraph curPara ++
          [BlockM.section (c.get ("kind")) title parts], appendTail c [])
      else if c.tag = "programlisting" then do
        let lines ← make_codeblock c
        pure (result ++ finish_paragraph curPara ++ [BlockM.codeBlock lines],
          appendTail c [])
      else if c.tag = "parameterlist" then do
        let items ← c.children.mapM (fun db =>
          if db.tag = "parameteritem" then do
            let st2 ← db.children.foldlM
              (fun (st2 : Option Elem × List ParamItemM) item => do
                let (descr, params) := st2
                if item.tag = "parameterdescription" then
                  if descr.isSome then none
                  else pure (some item, params)
                else if item.tag = "parameternamelist" then do
                  let nm := item.children.find? (fun ch => ch.tag = "parametername")
                  let direction :=
                    match nm with
                    | some n => n.get ("direction")
                    | none => none
                  let ty ← text_with_refs fuel
                    (item.children.find? (fun ch => ch.tag = "parametertype")) idx
                  let nmp ← text_with_refs fuel nm idx
                  pure (descr, params ++ [ParamItemM.mk ty nmp direction])
                else none) ((none : Option Elem), ([] : List ParamItemM))
            match st2.1 with
            | none => none
            | some descr => do
              let bs ← make_blocks fuel descr idx
              pure (ParamDescrM.mk bs st2.2)
          else none)
        pure (result ++ finish_paragraph curPara ++
          [BlockM.parameterList (c.get ("kind")) items], appendTail c [])
      else if c.tag = "table" then do
        let caption ←
          match c.children with
          | t :: _ =>
            if t.tag = "caption"
            then (phrase_content fuel t idx false).map (fun p => some p)
            else pure (none : Option (List PhraseM))
          | [] => pure (none : Option (List PhraseM))
        let rows ← (c.children.drop (if caption.isSome then 1 else 0)).mapM (fun row =>
          if row.tag = "row" then
            row.children.mapM (fun cell => do
              let bs ← make_blocks fuel cell idx
              let colSpan ← pyInt1 (cell.get ("colspan"))
              let rowSpan ← pyInt1 (cell.get ("rowspan"))
              pure (CellM.mk bs colSpan rowSpan (pyTruthyB (cell.get ("thead")))
                (cell.get ("align")) (cell.get ("valign")) (cell.get ("width"))
                (cell.get ("class"))))
          else none)
        pure (result ++ finish_paragraph curPara ++
          [BlockM.table (c.get ("cols")) caption rows], appendTail c [])
      else if c.tag = "para" then do
        let bs ← make_blocks fuel c idx
        pure (result ++ finish_paragraph curPara ++ bs, appendTail c [])
      else do
        let ph ← make_phrase fuel c idx false
        pure (result, appendTail c (curPara ++ [ph]))) (([] : List BlockM), cur0)
    pure (st.1 ++ finish_paragraph st.2)

/-- Model of `make_list` (source lines 333-338): each child must be a `listitem`; the
items are the raw `make_blocks` results — no `ListItem` object is
constructed. -/
def make_list (fuel : Nat) (e : Elem) (idx : Index) : Option BlockM := do
  let items ← e.children.mapM (fun li =>
    if li.tag = "listitem" then make_blocks fuel li idx else none)
  pure (BlockM.list (e.get ("type")) items)

/-- The `ListItem` data-model constructor (source lines 150-153): `assert
blocks` rejects an empty block sequence. -/
def listItemInit (blocks : List BlockM) : Option (List BlockM) :=
  if blocks.isEmpty then none else some blocks

/-- C2: for a reference element carrying target id `rid` (and no explicit
refid argument): a registered id resolves to an `EntityRef` wrapping exactly
the registered entity; an unregistered id with fallback disabled fails (the
source returns Python `None`); an unregistered id with fallback enabled
yields a plain unlinked `Phrase` of the element's content, with no entity
binding. -/
theorem make_entity_reference_cases (fuel : Nat) (e : Elem) (idx : Index)
    (rid : String) (allow : Bool)
    (hrid : e.get ("refid") = some rid) (hne : rid ≠ "") :
    (∀ ent, lookupA idx rid = some ent →
      make_entity_reference fuel e idx none allow =
        (phrase_content fuel e idx allow).map (PhraseM.entityRef ent))
    ∧ (lookupA idx rid = none →
        make_entity_reference fuel e idx none false = none)
    ∧ (lookupA idx rid = none →
        make_entity_reference fuel e idx none true =
          (phrase_content fuel e idx true).map PhraseM.plain) := by
  refine ⟨?_, ?_, ?_⟩
  · intro ent hent
    simp [make_entity_reference, pyOrAttr, truthy, hrid, hne, hent]
  · intro hnone
    simp [make_entity_reference, pyOrAttr, truthy, hrid, hne, hnone]
  · intro hnone
    simp [make_entity_reference, pyOrAttr, truthy, hrid, hne, hnone]

/-- Witness for C2 at a concrete reference element, registered id and
unregistered id. -/
theorem make_entity_reference_cases_witness :
    make_entity_reference 1 (Elem.mk ("ref") [("refid", "id1")] "T" "" [])
        [("id1", 7)] none true =
      (phrase_content 1 (Elem.mk ("ref") [("refid", "id1")] "T" "" [])
        [("id1", 7)] true).map (PhraseM.entityRef 7)
    ∧ make_entity_reference 1 (Elem.mk ("ref") [("refid", "idX")] "T" "" [])
        [("id1", 7)] none false = none :=
  ⟨(make_entity_reference_cases 1 (Elem.mk ("ref") [("refid", "id1")] "T" "" [])
      [("id1", 7)] "id1" true rfl (by decide)).1 7 rfl,
   (make_entity_reference_cases 1 (Elem.mk ("ref") [("refid", "idX")] "T" "" [])
      [("id1", 7)] "idX" false rfl (by decide)).2.1 rfl⟩

theorem dropWhile_idem {α : Type} (p : α → Bool) :
    ∀ (l : List α), (l.dropWhile p).dropWhile p = l.dropWhile p := by
  intro l
  induction l with
  | nil => rfl
  | cons x xs ih =>
    by_cases hx : p x
    · simp [List.dropWhile_cons, hx, ih]
    · simp [List.dropWhile_cons, hx]

theorem pyLstripS_idem (s : String) : pyLstripS (pyLstripS s) = pyLstripS s :=
  congrArg String.mk (dropWhile_idem Char.isWhitespace s.data)

theorem lstripAfterBreaks_idem : ∀ (l : List PhraseM) (b : Bool),
    lstripAfterBreaks b (lstripAfterBreaks b l) = lstripAfterBreaks b l := by
  intro l
  induction l with
  | nil => intro b; rfl
  | cons p rest ih =>
    intro b
    cases b <;> cases p <;>
      simp [lstripAfterBreaks, isBreak, pyLstripS_idem, ih]

/-- C7: when the content-model parser flushes its paragraph accumulator: an
empty accumulator produces no Paragraph; the leading whitespace of a first
text run is irrelevant to the flush (it gets stripped); a first text run
emptied by stripping is dropped; a last text run is rstripped, and dropped
when emptied; in the flushed Paragraph every text run immediately following
a Linebreak has no leading whitespace (the lstrip pass is a fixed point) and
the paragraph is non-empty; and the spec's concrete example — text
`"  hello\n"`, an inline `<bold>world</bold>`, a linebreak, and trailing
whitespace-only tail text — flushes to a Paragraph whose first run is
`"hello"` with no whitespace run after the linebreak. -/
theorem finish_paragraph_flush_spec :
    (finish_paragraph [] = [])
    ∧ (∀ s rest, finish_paragraph (PhraseM.text s :: rest) =
        finish_paragraph (PhraseM.text (pyLstripS s) :: rest))
    ∧ (∀ s rest, pyLstripS s = "" → stripFirstRun (PhraseM.text s :: rest) = rest)
    ∧ (∀ init s, pyRstripS s ≠ "" → stripLastRun (init ++ [PhraseM.text s]) =
        init ++ [PhraseM.text (pyRstripS s)])
    ∧ (∀ init s, pyRstripS s = "" → stripLastRun (init ++ [PhraseM.text s]) = init)
    ∧ (∀ cur parts, finish_paragraph cur = [BlockM.paragraph parts] →
        lstripAfterBreaks false parts = parts ∧ parts ≠ [])
    ∧ make_blocks 2 (Elem.mk ("para") [] "  hello\n" ""
        [Elem.mk ("bold") [] "world" "" [], Elem.mk ("linebreak") [] "" "\n  " []]) []
      = some [BlockM.paragraph [PhraseM.text ("hello"),
          PhraseM.strong [PhraseM.text ("world")], PhraseM.linebreak]] := by
  refine ⟨rfl, ?_, ?_, ?_, ?_, ?_, rfl⟩
  · intro s rest
    have h0 : pyLstripS ("") = "" := rfl
    have hsf : stripFirstRun (PhraseM.text s :: rest) =
        stripFirstRun (PhraseM.text (pyLstripS s) :: rest) := by
      by_cases hs : pyLstripS s = ""
      · simp [stripFirstRun, hs, h0, pyLstripS_idem]
      · simp [stripFirstRun, hs, pyLstripS_idem]
    simp only [finish_paragraph, hsf]
  · intro s rest hs
    simp [stripFirstRun, hs]
  · intro init s hs
    simp [stripLastRun, stripLastRunRev, List.reverse_append, hs]
  · intro init s hs
    simp [stripLastRun, stripLastRunRev, List.reverse_append, hs]
  · intro cur parts h
    simp only [finish_paragraph] at h
    by_cases hemp :
        (lstripAfterBreaks false (stripLastRun (stripFirstRun cur))).isEmpty
    · rw [if_pos hemp] at h; cases h
    · rw [if_neg hemp] at h
      injection h with h1 _
      injection h1 with h2
      constructor
      · rw [← h2, lstripAfterBreaks_idem]
      · intro hp
        rw [← h2] at hp
        rw [hp] at hemp
        exact hemp rfl

/-- Witness for C7: the drop clauses at whitespace-only runs. -/
theorem finish_paragraph_flush_spec_witness :
    stripFirstRun (PhraseM.text ("  ") :: [PhraseM.linebreak]) = [PhraseM.linebreak]
    ∧ stripLastRun ([PhraseM.linebreak] ++ [PhraseM.text ("  ")]) = [PhraseM.linebreak] :=
  ⟨finish_paragraph_flush_spec.2.2.1 ("  ") [PhraseM.linebreak] rfl,
   finish_paragraph_flush_spec.2.2.2.2.1 [PhraseM.linebreak] "  " rfl⟩

/-- C9 counterexample: a `listitem` with no content yields an empty item:
`make_list` stores raw block lists and never constructs a `ListItem`, so an
item of a produced List can be the empty block sequence. -/
theorem make_list_empty_item_counterexample :
    make_list 1 (Elem.mk ("itemizedlist") [] "" "" [Elem.mk ("listitem") [] "" "" []]) []
      = some (BlockM.list none [[]])
    ∧ ([[]] : List (List BlockM)).any List.isEmpty = true := ⟨rfl, rfl⟩

/-- C9 amended: the `ListItem` data-model constructor does reject empty
block sequences (a constructed ListItem is never empty), but `make_list`
stores raw block lists without constructing ListItems: the items of a
produced List are exactly the `make_blocks` results of the `listitem`
children and may be empty. -/
theorem list_items_raw_blocks :
    (∀ bs out, listItemInit bs = some out → out ≠ [] ∧ out = bs)
    ∧ (∀ fuel e idx kind items,
        make_list fuel e idx = some (BlockM.list kind items) →
        kind = e.get ("type") ∧
          e.children.mapM (fun li =>
            if li.tag = "listitem" then make_blocks fuel li idx else none)
            = some items) := by
  constructor
  · intro bs out h
    rw [listItemInit] at h
    by_cases hb : bs.isEmpty
    · rw [if_pos hb] at h; cases h
    · rw [if_neg hb] at h
      injection h with h1
      subst h1
      refine ⟨?_, rfl⟩
      intro hnil
      rw [hnil] at hb
      exact hb rfl
  · intro fuel e idx kind items h
    unfold make_list at h
    cases hm : e.children.mapM (fun li =>
        if li.tag = "listitem" then make_blocks fuel li idx else none) with
    | none =>
      rw [hm] at h
      simp at h
    | some its =>
      rw [hm] at h
      have h1 : BlockM.list (e.get ("type")) its = BlockM.list kind items :=
        Option.some.inj h
      have h2 : kind = e.get ("type") := by
        injection h1 with ha hb
        exact ha.symm
      have h3 : its = items := by
        injection h1
      exact ⟨h2, congrArg some h3⟩

/-- Witness for the amended C9. -/
theorem list_items_raw_blocks_witness :
    ([BlockM.codeBlock []] : List BlockM) ≠ []
    ∧ ([BlockM.codeBlock []] : List BlockM) = [BlockM.codeBlock []] :=
  list_items_raw_blocks.1 [BlockM.codeBlock []] [BlockM.codeBlock []] rfl

/-- C10: `resolve_type` returns the phrase of `text_with_refs` unchanged,
except that when the phrase is non-empty and its first part is a string
starting with `"constexpr"`, that leading token and any immediately
following whitespace are removed from the first part, the remaining parts
untouched. -/
theorem resolve_type_vs_text_with_refs (fuel : Nat) (oe : Option Elem) (idx : Index)
    (parts : List PhraseM) (h : text_with_refs fuel oe idx = some parts) :
    (∀ s rest, parts = PhraseM.text s :: rest →
      "constexpr".data.isPrefixOf s.data = true →
      resolve_type fuel oe idx =
        some (PhraseM.text (pyLstripS (String.mk (s.data.drop 9))) :: rest))
    ∧ (∀ s rest, parts = PhraseM.text s :: rest →
      "constexpr".data.isPrefixOf s.data = false →
      resolve_type fuel oe idx = some parts)
    ∧ ((∀ s rest, parts ≠ PhraseM.text s :: rest) →
      resolve_type fuel oe idx = some parts) := by
  refine ⟨?_, ?_, ?_⟩
  · intro s rest hp hpre
    subst hp
    simp [resolve_type, h, hpre]
  · intro s rest hp hpre
    subst hp
    simp [resolve_type, h, hpre]
  · intro hne
    cases parts with
    | nil => simp [resolve_type, h]
    | cons p rest =>
      cases p with
      | text s => exact absurd rfl (hne s rest)
      | linebreak => simp [resolve_type, h]
      | emphasised ps => simp [resolve_type, h]
      | strong ps => simp [resolve_type, h]
      | monospaced ps => simp [resolve_type, h]
      | entityRef n ps => simp [resolve_type, h]
      | urlLink u ps => simp [resolve_type, h]
      | plain ps => simp [resolve_type, h]

/-- Witness for C10 at a concrete `constexpr int` type fragment. -/
theorem resolve_type_vs_text_with_refs_witness :
    resolve_type 1 (some (Elem.mk ("type") [] "constexpr int" "" [])) [] =
      some (PhraseM.text (pyLstripS (String.mk (("constexpr int").data.drop 9))) :: []) :=
  (resolve_type_vs_text_with_refs 1 (some (Elem.mk ("type") [] "constexpr int" "" []))
      [] [PhraseM.text ("constexpr int")] rfl).1 ("constexpr int") [] rfl (by decide)

end Docca
